import Mathlib

/-!
Shallow embedding of `src/lib/realNumberMath.ts` (the real-number statistics
module of the study-flow-analytics repository) and proofs of the specified
properties.

Numbers are modelled as rationals `ℚ`; the JavaScript idiom
`parseFloat(x.toFixed(n))` is modelled by `toFixed n`, rounding half away
from zero at the n-th decimal digit, which is the precision policy the
specification prescribes.  The special floating-point inputs NaN and
±Infinity, which only `createReal` inspects, are modelled by the wrapper
type `JsNum`.  `Math.sqrt` (used only by `calculateStdDev`) is modelled by
`Real.sqrt`, so `calculateStdDev` is real-valued.
-/

namespace RealNumberMath

/-- Rounds a rational to the nearest integer, ties away from zero:
the integer produced by JavaScript `toFixed` semantics at scale 1. -/
def roundHalfAway (x : ℚ) : ℤ :=
  if x < 0 then -⌊-x + 1/2⌋ else ⌊x + 1/2⌋

/-- Models `parseFloat(x.toFixed(n))`: round `x` half away from zero at the
n-th decimal digit. -/
def toFixed (n : ℕ) (x : ℚ) : ℚ :=
  (roundHalfAway (x * 10 ^ n) : ℚ) / 10 ^ n

/-- A JavaScript `number` as seen by `createReal`: NaN, a signed infinity,
or a finite value (modelled as a rational). -/
inductive JsNum where
  | nan : JsNum
  | inf : Bool → JsNum
  | fin : ℚ → JsNum
deriving DecidableEq

/-- The `RealNumber` interface of the source module. -/
structure RealNumber where
  value : ℚ
  isValid : Bool
  errorMessage : Option String
deriving DecidableEq

/-- `createReal` from the source: rejects NaN, infinities and negative
values; otherwise stores the value rounded to 6 decimal places. -/
def createReal : JsNum → RealNumber
  | JsNum.nan => { value := 0, isValid := false, errorMessage := some "Value is NaN" }
  | JsNum.inf _ => { value := 0, isValid := false, errorMessage := some "Value is Infinity" }
  | JsNum.fin v =>
      if v < 0 then
        { value := 0, isValid := false, errorMessage := some "Negative values not allowed" }
      else
        { value := toFixed 6 v, isValid := true, errorMessage := none }

/-- `clampReal` from the source. -/
def clampReal (value min max : ℚ) : ℚ :=
  if value < min then min
  else if value > max then max
  else value

/-- `calculateMean` from the source: 0 on the empty sequence, otherwise the
left-to-right sum divided by the length, rounded to 4 decimal places. -/
def calculateMean (values : List ℚ) : ℚ :=
  if values = [] then 0
  else
    let sum := values.foldl (fun s v => s + v) 0
    let mean := sum / (values.length : ℚ)
    toFixed 4 mean

/-- `findSupremum` from the source: 0 on the empty sequence, otherwise a
linear scan keeping the running maximum under strict comparison. -/
def findSupremum (values : List ℚ) : ℚ :=
  match values with
  | [] => 0
  | v :: rest => rest.foldl (fun sup x => if x > sup then x else sup) v

/-- `findInfimum` from the source: 0 on the empty sequence, otherwise a
linear scan keeping the running minimum under strict comparison. -/
def findInfimum (values : List ℚ) : ℚ :=
  match values with
  | [] => 0
  | v :: rest => rest.foldl (fun inf x => if x < inf then x else inf) v

/-- `simpleIntegration` from the source: 0 on the empty sequence, otherwise
the Riemann sum `Σ (value * interval)`, rounded to 4 decimal places. -/
def simpleIntegration (values : List ℚ) (interval : ℚ) : ℚ :=
  if values = [] then 0
  else toFixed 4 (values.foldl (fun total v => total + v * interval) 0)

/-- `normalize` from the source: 0 on a degenerate range, otherwise the
affine map `(value - min) / (max - min)` clamped into `[0, 1]`. -/
def normalize (value min max : ℚ) : ℚ :=
  if max = min then 0
  else
    let normalized := (value - min) / (max - min)
    clampReal normalized 0 1

/-- `calculateVariance` from the source: 0 on the empty sequence, otherwise
the mean of the squared deviations from `calculateMean`, rounded to 4
decimal places. -/
def calculateVariance (values : List ℚ) : ℚ :=
  if values = [] then 0
  else
    let mean := calculateMean values
    let sumSquaredDiff := values.foldl (fun s v => s + (v - mean) * (v - mean)) 0
    toFixed 4 (sumSquaredDiff / (values.length : ℚ))

/-- `calculateZScore` from the source: 0 when the standard deviation is 0,
otherwise `(value - mean) / stdDev` rounded to 4 decimal places. -/
def calculateZScore (value mean stdDev : ℚ) : ℚ :=
  if stdDev = 0 then 0
  else toFixed 4 ((value - mean) / stdDev)

/-- One inner pass of the bubble sort in `sortReals`: `bound` iterations of
the compare-and-swap of adjacent elements, starting at the head. -/
def passUpTo : ℕ → List ℚ → List ℚ
  | 0, l => l
  | _ + 1, [] => []
  | _ + 1, [a] => [a]
  | bound + 1, a :: b :: t =>
      if a > b then b :: passUpTo bound (a :: t)
      else a :: passUpTo bound (b :: t)

/-- The outer loop of the bubble sort in `sortReals`: with `k + 1` outer
iterations remaining the inner loop runs `k` compare-and-swap steps. -/
def bubbleIter : ℕ → List ℚ → List ℚ
  | 0, l => l
  | k + 1, l => bubbleIter k (passUpTo k l)

/-- `sortReals` from the source: bubble sort, `n` outer iterations with the
inner bound `n - i - 1` shrinking by one each time. -/
def sortReals (values : List ℚ) : List ℚ :=
  bubbleIter values.length values

/-- The rounding of `toFixed` carried over to the real numbers, needed
because `Math.sqrt` generally leaves the rationals. -/
noncomputable def roundHalfAwayR (x : ℝ) : ℤ :=
  if x < 0 then -⌊-x + 1/2⌋ else ⌊x + 1/2⌋

/-- `parseFloat(x.toFixed(n))` on a real argument. -/
noncomputable def toFixedR (n : ℕ) (x : ℝ) : ℝ :=
  (roundHalfAwayR (x * 10 ^ n) : ℝ) / 10 ^ n

/-- `calculateStdDev` from the source: recomputes the variance internally
from the sequence, takes its square root (`Math.sqrt`, modelled by
`Real.sqrt`), and rounds to 4 decimal places. -/
noncomputable def calculateStdDev (values : List ℚ) : ℝ :=
  toFixedR 4 (Real.sqrt ((calculateVariance values : ℚ) : ℝ))

/- ### Basic facts about `clampReal` -/

theorem clampReal_eq_max_min (x lo hi : ℚ) (h : lo ≤ hi) :
    clampReal x lo hi = max lo (min hi x) := by
  unfold clampReal
  split_ifs with h1 h2
  · rw [min_eq_right (by linarith), max_eq_left (by linarith)]
  · rw [min_eq_left (by linarith), max_eq_right h]
  · rw [min_eq_right (by linarith), max_eq_right (by linarith)]

theorem clampReal_mem (x lo hi : ℚ) (h : lo ≤ hi) :
    lo ≤ clampReal x lo hi ∧ clampReal x lo hi ≤ hi := by
  unfold clampReal
  split_ifs with h1 h2 <;> constructor <;> linarith

/-- **C6.** All five aggregate functions return 0 on the empty sequence
(`simpleIntegration` for every interval width); in this embedding they are
total functions into `ℚ`, so no error can be signalled. -/
theorem empty_sequence_defaults :
    calculateMean [] = 0 ∧ findSupremum [] = 0 ∧ findInfimum [] = 0 ∧
      calculateVariance [] = 0 ∧ ∀ interval : ℚ, simpleIntegration [] interval = 0 :=
  ⟨rfl, rfl, rfl, rfl, fun _ => rfl⟩

/-- **C7.** The z-score guards division by zero: a zero standard deviation
yields 0 for every value and mean; a nonzero standard deviation yields
`(x - μ) / σ` rounded to 4 decimal places. -/
theorem calculateZScore_spec :
    (∀ x μ : ℚ, calculateZScore x μ 0 = 0) ∧
      ∀ x μ σ : ℚ, σ ≠ 0 → calculateZScore x μ σ = toFixed 4 ((x - μ) / σ) := by
  constructor
  · intro x μ
    simp [calculateZScore]
  · intro x μ σ hσ
    simp [calculateZScore, hσ]

/-- Witness for C7: the nonzero-σ branch at `x = 3`, `μ = 1`, `σ = 2`. -/
theorem calculateZScore_spec_witness :
    (2 : ℚ) ≠ 0 ∧ calculateZScore 3 1 2 = toFixed 4 ((3 - 1) / 2) :=
  ⟨by norm_num, calculateZScore_spec.2 3 1 2 (by norm_num)⟩

/-- **C8.** `normalize` returns 0 on a degenerate range; on any
non-degenerate range it is the affine map clamped into `[0, 1]` (equal to
`max 0 (min 1 ·)`), with no 4-decimal rounding applied. -/
theorem normalize_spec :
    (∀ v m : ℚ, normalize v m m = 0) ∧
      (∀ value lo hi : ℚ, lo ≠ hi →
        normalize value lo hi = clampReal ((value - lo) / (hi - lo)) 0 1) ∧
      ∀ value lo hi : ℚ, lo ≠ hi →
        normalize value lo hi = max 0 (min 1 ((value - lo) / (hi - lo))) := by
  refine ⟨fun v m => by simp [normalize], ?_, ?_⟩
  · intro value lo hi h
    simp only [normalize]
    rw [if_neg (fun e => h e.symm)]
  · intro value lo hi h
    simp only [normalize]
    rw [if_neg (fun e => h e.symm), clampReal_eq_max_min _ _ _ (by norm_num)]

/-- Witness for C8: a degenerate range and the concrete range `[0, 2]` at
value 1. -/
theorem normalize_spec_witness :
    normalize 7 3 3 = 0 ∧ (0 : ℚ) ≠ 2 ∧
      normalize 1 0 2 = clampReal ((1 - 0) / (2 - 0)) 0 1 ∧
      normalize 1 0 2 = max 0 (min 1 ((1 - 0) / (2 - 0))) :=
  ⟨normalize_spec.1 7 3, by norm_num, normalize_spec.2.1 1 0 2 (by norm_num),
    normalize_spec.2.2 1 0 2 (by norm_num)⟩

/- ### The rounding function -/

theorem roundHalfAway_close (x : ℚ) : |((roundHalfAway x : ℤ) : ℚ) - x| ≤ 1/2 := by
  unfold roundHalfAway
  have h1 := Int.floor_le (-x + 1/2)
  have h2 := Int.sub_one_lt_floor (-x + 1/2)
  have h3 := Int.floor_le (x + 1/2)
  have h4 := Int.sub_one_lt_floor (x + 1/2)
  split_ifs with h <;> rw [abs_le] <;> push_cast <;> constructor <;> linarith

theorem toFixed_close (n : ℕ) (x : ℚ) : |toFixed n x - x| ≤ 1 / (2 * 10 ^ n) := by
  have h10 : (0:ℚ) < 10 ^ n := by positivity
  have key := roundHalfAway_close (x * 10 ^ n)
  have heq : toFixed n x - x =
      (((roundHalfAway (x * 10 ^ n) : ℤ) : ℚ) - x * 10 ^ n) / 10 ^ n := by
    unfold toFixed
    field_simp
    ring
  rw [heq, abs_div, abs_of_pos h10,
    show (1:ℚ) / (2 * 10 ^ n) = (1/2) / 10 ^ n by ring, div_le_div_iff_of_pos_right h10]
  exact key

theorem roundHalfAway_eval (x : ℚ) (z : ℤ) (h0 : ¬ x < 0)
    (h1 : (z:ℚ) ≤ x + 1/2) (h2 : x + 1/2 < z + 1) : roundHalfAway x = z := by
  unfold roundHalfAway
  rw [if_neg h0]
  exact Int.floor_eq_iff.mpr ⟨h1, h2⟩

theorem toFixed_eval (n : ℕ) (x : ℚ) (z : ℤ) (h0 : ¬ x * 10 ^ n < 0)
    (h1 : (z:ℚ) ≤ x * 10 ^ n + 1/2) (h2 : x * 10 ^ n + 1/2 < z + 1) :
    toFixed n x = (z : ℚ) / 10 ^ n := by
  unfold toFixed
  rw [roundHalfAway_eval _ z h0 h1 h2]

theorem toFixed_nonneg (n : ℕ) (x : ℚ) (hx : 0 ≤ x) : 0 ≤ toFixed n x := by
  have h10 : (0:ℚ) < 10 ^ n := by positivity
  have hxn : (0:ℚ) ≤ x * 10 ^ n := mul_nonneg hx h10.le
  unfold toFixed roundHalfAway
  rw [if_neg (by linarith)]
  apply div_nonneg _ h10.le
  exact_mod_cast Int.le_floor.mpr (by push_cast; linarith)

/- ### Expressing the accumulator loops as list sums -/

theorem foldl_add_eq_sum (l : List ℚ) (a : ℚ) :
    l.foldl (fun s v => s + v) a = a + l.sum := by
  induction l generalizing a with
  | nil => simp
  | cons x t ih => rw [List.foldl_cons, ih, List.sum_cons]; ring

theorem foldl_sq_diff_eq_sum (l : List ℚ) (m a : ℚ) :
    l.foldl (fun s v => s + (v - m) * (v - m)) a =
      a + (l.map (fun x => (x - m) ^ 2)).sum := by
  induction l generalizing a with
  | nil => simp
  | cons x t ih => rw [List.foldl_cons, ih, List.map_cons, List.sum_cons]; ring

theorem calculateMean_eq (values : List ℚ) (h : values ≠ []) :
    calculateMean values = toFixed 4 (values.sum / (values.length : ℚ)) := by
  simp only [calculateMean, if_neg h, foldl_add_eq_sum, zero_add]

theorem calculateVariance_eq (values : List ℚ) (h : values ≠ []) :
    calculateVariance values =
      toFixed 4 ((values.map (fun x => (x - calculateMean values) ^ 2)).sum /
        (values.length : ℚ)) := by
  simp only [calculateVariance, if_neg h, foldl_sq_diff_eq_sum, zero_add]

/- ### Extrema bound every element -/

theorem foldl_sup_spec (t : List ℚ) (a : ℚ) :
    a ≤ t.foldl (fun sup x => if x > sup then x else sup) a ∧
      ∀ x ∈ t, x ≤ t.foldl (fun sup x => if x > sup then x else sup) a := by
  induction t generalizing a with
  | nil => simp
  | cons b t ih =>
    have hstep : ∀ s v : ℚ, s ≤ (if v > s then v else s) ∧ v ≤ (if v > s then v else s) := by
      intro s v
      split_ifs with h <;> constructor <;> linarith
    rw [List.foldl_cons]
    refine ⟨le_trans (hstep a b).1 (ih _).1, ?_⟩
    intro x hx
    rcases List.mem_cons.mp hx with rfl | hx
    · exact le_trans (hstep a x).2 (ih _).1
    · exact (ih _).2 x hx

theorem foldl_inf_spec (t : List ℚ) (a : ℚ) :
    t.foldl (fun inf x => if x < inf then x else inf) a ≤ a ∧
      ∀ x ∈ t, t.foldl (fun inf x => if x < inf then x else inf) a ≤ x := by
  induction t generalizing a with
  | nil => simp
  | cons b t ih =>
    have hstep : ∀ s v : ℚ, (if v < s then v else s) ≤ s ∧ (if v < s then v else s) ≤ v := by
      intro s v
      split_ifs with h <;> constructor <;> linarith
    rw [List.foldl_cons]
    refine ⟨le_trans (ih _).1 (hstep a b).1, ?_⟩
    intro x hx
    rcases List.mem_cons.mp hx with rfl | hx
    · exact le_trans (ih _).1 (hstep a x).2
    · exact (ih _).2 x hx

theorem mem_le_findSupremum (values : List ℚ) (h : values ≠ []) :
    ∀ x ∈ values, x ≤ findSupremum values := by
  match values with
  | v :: rest =>
    intro x hx
    rcases List.mem_cons.mp hx with rfl | hx
    · exact (foldl_sup_spec rest x).1
    · exact (foldl_sup_spec rest v).2 x hx

theorem findInfimum_le_mem (values : List ℚ) (h : values ≠ []) :
    ∀ x ∈ values, findInfimum values ≤ x := by
  match values with
  | v :: rest =>
    intro x hx
    rcases List.mem_cons.mp hx with rfl | hx
    · exact (foldl_inf_spec rest x).1
    · exact (foldl_inf_spec rest v).2 x hx

theorem exact_mean_between (values : List ℚ) (h : values ≠ []) :
    findInfimum values ≤ values.sum / (values.length : ℚ) ∧
      values.sum / (values.length : ℚ) ≤ findSupremum values := by
  have hn : (0:ℚ) < (values.length : ℚ) := by
    have : values.length ≠ 0 := fun hl => h (List.eq_nil_of_length_eq_zero hl)
    exact_mod_cast Nat.pos_of_ne_zero this
  have hsup : values.sum ≤ (values.length : ℚ) * findSupremum values := by
    have := List.sum_le_card_nsmul values (findSupremum values) (mem_le_findSupremum values h)
    rwa [nsmul_eq_mul] at this
  have hinf : (values.length : ℚ) * findInfimum values ≤ values.sum := by
    have := List.card_nsmul_le_sum values (findInfimum values) (findInfimum_le_mem values h)
    rwa [nsmul_eq_mul] at this
  constructor
  · rw [le_div_iff₀ hn]
    linarith
  · rw [div_le_iff₀ hn]
    linarith

theorem mean_singleton_small : calculateMean [1/100000] = 0 := by
  rw [calculateMean_eq _ (by simp)]
  have hv : (List.sum [(1:ℚ)/100000]) / (List.length [(1:ℚ)/100000] : ℚ) = 1/100000 := by
    norm_num
  rw [hv, toFixed_eval 4 _ 0 (by norm_num) (by norm_num) (by norm_num)]
  norm_num

/-- **C1 (counterexample).** The chain
`findInfimum S ≤ calculateMean S ≤ findSupremum S` fails for
`S = [0.00001]`: the mean is rounded to 4 decimal places, giving 0, while
the unrounded infimum is `0.00001 > 0`. -/
theorem mean_between_extrema_counterexample :
    ¬ (findInfimum [1/100000] ≤ calculateMean [1/100000] ∧
        calculateMean [1/100000] ≤ findSupremum [1/100000]) := by
  intro hc
  rw [mean_singleton_small, show findInfimum [(1:ℚ)/100000] = 1/100000 from rfl] at hc
  norm_num at hc

/-- **C1 (amended).** For every non-empty sequence the 4-decimal rounding of
the mean can leave `[inf, sup]` by at most half of `10 ^ (-4)`:
`findInfimum S - 0.00005 ≤ calculateMean S ≤ findSupremum S + 0.00005`. -/
theorem mean_between_extrema_amended (values : List ℚ) (h : values ≠ []) :
    findInfimum values - 1/20000 ≤ calculateMean values ∧
      calculateMean values ≤ findSupremum values + 1/20000 := by
  have hexact := exact_mean_between values h
  have hclose := toFixed_close 4 (values.sum / (values.length : ℚ))
  rw [abs_le] at hclose
  have h20000 : (1:ℚ) / (2 * 10 ^ 4) = 1/20000 := by norm_num
  rw [h20000] at hclose
  rw [calculateMean_eq values h]
  constructor <;> linarith [hclose.1, hclose.2, hexact.1, hexact.2]

/-- Witness for the amended C1 at the one-element sequence `[1]`. -/
theorem mean_between_extrema_amended_witness :
    ([(1:ℚ)] ≠ []) ∧ findInfimum [1] - 1/20000 ≤ calculateMean [1] ∧
      calculateMean [1] ≤ findSupremum [1] + 1/20000 :=
  ⟨by simp, mean_between_extrema_amended [1] (by simp)⟩

theorem createReal_neg_one :
    createReal (JsNum.fin (-1)) = ⟨0, false, some "Negative values not allowed"⟩ := by
  norm_num [createReal]

theorem createReal_round_example :
    createReal (JsNum.fin (31234567 / 10000000)) = ⟨3123457 / 1000000, true, none⟩ := by
  have h : toFixed 6 (31234567 / 10000000 : ℚ) = 3123457 / 1000000 := by
    rw [toFixed_eval 6 _ 3123457 (by norm_num) (by norm_num) (by norm_num)]
    norm_num
  norm_num [createReal, h]

/-- **C2.** `createReal` is invalid (with value 0 and an error message)
exactly on NaN, the infinities and negative finite inputs; on a
non-negative finite input it succeeds with the value rounded to 6 decimal
places — in particular at `-1` (negative-value message) and at
`3.1234567`, which rounds to `3.123457`. -/
theorem createReal_spec (x : JsNum) :
    ((createReal x).isValid = false ↔
      x = JsNum.nan ∨ (∃ s, x = JsNum.inf s) ∨ ∃ q, x = JsNum.fin q ∧ q < 0) ∧
      ((createReal x).isValid = false →
        (createReal x).value = 0 ∧ (createReal x).errorMessage ≠ none) ∧
      (∀ q : ℚ, 0 ≤ q → createReal (JsNum.fin q) = ⟨toFixed 6 q, true, none⟩) ∧
      createReal (JsNum.fin (-1)) =
        ⟨0, false, some "Negative values not allowed"⟩ ∧
      createReal (JsNum.fin (31234567 / 10000000)) = ⟨3123457 / 1000000, true, none⟩ := by
  refine ⟨?_, ?_, ?_, createReal_neg_one, createReal_round_example⟩
  · cases x with
    | nan => simp [createReal]
    | inf s => simp [createReal]
    | fin q =>
      by_cases hq : q < 0 <;> simp [createReal, hq]
  · cases x with
    | nan => simp [createReal]
    | inf s => simp [createReal]
    | fin q =>
      by_cases hq : q < 0 <;> simp [createReal, hq]
  · intro q hq
    simp [createReal, not_lt.mpr hq]

/-- Witness for C2: the invalid branch at NaN and the valid branch at 0. -/
theorem createReal_spec_witness :
    ((createReal JsNum.nan).value = 0 ∧ (createReal JsNum.nan).errorMessage ≠ none) ∧
      createReal (JsNum.fin 0) = ⟨toFixed 6 0, true, none⟩ :=
  ⟨(createReal_spec JsNum.nan).2.1 (by decide),
    (createReal_spec (JsNum.fin 0)).2.2.1 0 (by norm_num)⟩

theorem calculateMean_example : calculateMean [3/2, 2, 1/2, 3] = 7/4 := by
  rw [calculateMean_eq _ (by simp)]
  have hv : (List.sum [(3:ℚ)/2, 2, 1/2, 3]) / (List.length [(3:ℚ)/2, 2, 1/2, 3] : ℚ) = 7/4 := by
    norm_num
  rw [hv, toFixed_eval 4 _ 17500 (by norm_num) (by norm_num) (by norm_num)]
  norm_num

theorem calculateVariance_example : calculateVariance [3/2, 2, 1/2, 3] = 13/16 := by
  rw [calculateVariance_eq _ (by simp)]
  have hv : (List.map (fun x => (x - calculateMean [3/2, 2, 1/2, 3]) ^ 2)
        [(3:ℚ)/2, 2, 1/2, 3]).sum / (List.length [(3:ℚ)/2, 2, 1/2, 3] : ℚ) = 13/16 := by
    rw [calculateMean_example]
    norm_num
  rw [hv, toFixed_eval 4 _ 8125 (by norm_num) (by norm_num) (by norm_num)]
  norm_num

/-- **C3.** `calculateMean` returns 0 on the empty sequence, and on a
non-empty sequence the sum divided by the length, rounded to 4 decimal
places; on `[1.5, 2.0, 0.5, 3.0]` it returns `1.75`. -/
theorem calculateMean_spec :
    calculateMean [] = 0 ∧
      (∀ values : List ℚ, values ≠ [] →
        calculateMean values = toFixed 4 (values.sum / (values.length : ℚ))) ∧
      calculateMean [3/2, 2, 1/2, 3] = 7/4 :=
  ⟨rfl, calculateMean_eq, calculateMean_example⟩

/-- Witness for C3: the non-empty branch at the singleton `[1]`. -/
theorem calculateMean_spec_witness :
    ([(1:ℚ)] ≠ []) ∧
      calculateMean [1] = toFixed 4 (List.sum [1] / (List.length [(1:ℚ)] : ℚ)) :=
  ⟨by simp, calculateMean_spec.2.1 [1] (by simp)⟩

/-- **C4.** `calculateVariance` returns 0 on the empty sequence, and on a
non-empty sequence the population variance (squared deviations from the
module's mean, divided by N) rounded to 4 decimal places; on
`[1.5, 2.0, 0.5, 3.0]` it returns `0.8125`. -/
theorem calculateVariance_spec :
    calculateVariance [] = 0 ∧
      (∀ values : List ℚ, values ≠ [] →
        calculateVariance values =
          toFixed 4 ((values.map (fun x => (x - calculateMean values) ^ 2)).sum /
            (values.length : ℚ))) ∧
      calculateVariance [3/2, 2, 1/2, 3] = 13/16 :=
  ⟨rfl, calculateVariance_eq, calculateVariance_example⟩

/-- Witness for C4: the non-empty branch at the singleton `[1]`. -/
theorem calculateVariance_spec_witness :
    ([(1:ℚ)] ≠ []) ∧
      calculateVariance [1] =
        toFixed 4 ((List.map (fun x => (x - calculateMean [1]) ^ 2) [1]).sum /
          (List.length [(1:ℚ)] : ℚ)) :=
  ⟨by simp, calculateVariance_spec.2.1 [1] (by simp)⟩

/-- **C10.** For every value and every pair of bounds — inverted bounds
included — the result of `normalize` lies in `[0, 1]`. -/
theorem normalize_mem_unit_interval (value lo hi : ℚ) :
    0 ≤ normalize value lo hi ∧ normalize value lo hi ≤ 1 := by
  unfold normalize
  split_ifs with h
  · norm_num
  · exact clampReal_mem _ 0 1 (by norm_num)

/- ### Rounding on the reals, for the standard deviation -/

theorem roundHalfAwayR_close (x : ℝ) : |((roundHalfAwayR x : ℤ) : ℝ) - x| ≤ 1/2 := by
  unfold roundHalfAwayR
  have h1 := Int.floor_le (-x + 1/2)
  have h2 := Int.sub_one_lt_floor (-x + 1/2)
  have h3 := Int.floor_le (x + 1/2)
  have h4 := Int.sub_one_lt_floor (x + 1/2)
  split_ifs with h <;> rw [abs_le] <;> push_cast <;> constructor <;> linarith

theorem toFixedR_close (n : ℕ) (x : ℝ) : |toFixedR n x - x| ≤ 1 / (2 * 10 ^ n) := by
  have h10 : (0:ℝ) < 10 ^ n := by positivity
  have key := roundHalfAwayR_close (x * 10 ^ n)
  have heq : toFixedR n x - x =
      (((roundHalfAwayR (x * 10 ^ n) : ℤ) : ℝ) - x * 10 ^ n) / 10 ^ n := by
    unfold toFixedR
    field_simp
    ring
  rw [heq, abs_div, abs_of_pos h10,
    show (1:ℝ) / (2 * 10 ^ n) = (1/2) / 10 ^ n by ring, div_le_div_iff_of_pos_right h10]
  exact key

theorem toFixedR_nonneg (n : ℕ) (x : ℝ) (hx : 0 ≤ x) : 0 ≤ toFixedR n x := by
  have h10 : (0:ℝ) < 10 ^ n := by positivity
  have hxn : (0:ℝ) ≤ x * 10 ^ n := mul_nonneg hx h10.le
  unfold toFixedR roundHalfAwayR
  rw [if_neg (by linarith)]
  apply div_nonneg _ h10.le
  exact_mod_cast Int.le_floor.mpr (by push_cast; linarith)

/-- **C5.** `calculateStdDev` is the non-negative square root of
`calculateVariance` up to the 4-decimal rounding it applies: it differs
from `Real.sqrt (calculateVariance S)` by at most half of `10 ^ (-4)`, it
is non-negative, and it is obtained by rounding the square root of the
variance recomputed internally from the sequence. -/
theorem calculateStdDev_spec (values : List ℚ) :
    |calculateStdDev values - Real.sqrt ((calculateVariance values : ℚ) : ℝ)| ≤ 1/20000 ∧
      0 ≤ calculateStdDev values ∧
      calculateStdDev values = toFixedR 4 (Real.sqrt ((calculateVariance values : ℚ) : ℝ)) := by
  refine ⟨?_, toFixedR_nonneg 4 _ (Real.sqrt_nonneg _), rfl⟩
  have h := toFixedR_close 4 (Real.sqrt ((calculateVariance values : ℚ) : ℝ))
  have h20000 : (1:ℝ) / (2 * 10 ^ 4) = 1/20000 := by norm_num
  rwa [h20000] at h

/- ### The bubble sort of `sortReals` -/

theorem passUpTo_perm (k : ℕ) (l : List ℚ) : (passUpTo k l).Perm l := by
  induction k generalizing l with
  | zero => rw [passUpTo]
  | succ k ih =>
    match l with
    | [] => rw [passUpTo]
    | [a] => rw [passUpTo]
    | a :: b :: t =>
      rw [passUpTo]
      split_ifs with h
      · exact ((ih (a :: t)).cons b).trans (List.Perm.swap a b t)
      · exact (ih (b :: t)).cons a

theorem passUpTo_drop (k : ℕ) (l : List ℚ) :
    (passUpTo k l).drop (k + 1) = l.drop (k + 1) := by
  induction k generalizing l with
  | zero => rw [passUpTo]
  | succ k ih =>
    match l with
    | [] => rw [passUpTo]
    | [a] => simp [passUpTo]
    | a :: b :: t =>
      rw [passUpTo]
      split_ifs with h
      · simp only [List.drop_succ_cons, ih]
      · simp only [List.drop_succ_cons, ih]

theorem passUpTo_take_perm (k : ℕ) (l : List ℚ) :
    ((passUpTo k l).take (k + 1)).Perm (l.take (k + 1)) := by
  induction k generalizing l with
  | zero => rw [passUpTo]
  | succ k ih =>
    match l with
    | [] => rw [passUpTo]
    | [a] => rw [passUpTo]
    | a :: b :: t =>
      rw [passUpTo]
      split_ifs with h
      · rw [List.take_succ_cons, List.take_succ_cons, List.take_succ_cons]
        refine ((ih (a :: t)).cons b).trans ?_
        rw [List.take_succ_cons]
        exact List.Perm.swap a b _
      · rw [List.take_succ_cons, List.take_succ_cons, List.take_succ_cons]
        refine ((ih (b :: t)).cons a).trans ?_
        rw [List.take_succ_cons]

theorem head_drop_mem_take (r : List ℚ) (k : ℕ) (y : ℚ)
    (hy : y ∈ (r.drop k).take 1) : y ∈ r.take (k + 1) := by
  induction r generalizing k with
  | nil => simp at hy
  | cons h t ih =>
    cases k with
    | zero =>
      simp at hy
      simp [hy]
    | succ k =>
      rw [List.drop_succ_cons] at hy
      rw [List.take_succ_cons]
      exact List.mem_cons_of_mem h (ih k hy)

theorem mem_take_of_mem_take_pred (r : List ℚ) (k : ℕ) (x : ℚ)
    (hx : x ∈ r.take k) : x ∈ r.take (k + 1) := by
  rw [List.take_succ]
  exact List.mem_append_left _ hx

theorem passUpTo_last_max (k : ℕ) (l : List ℚ) :
    ∀ x ∈ (passUpTo k l).take (k + 1),
      ∀ y ∈ ((passUpTo k l).drop k).take 1, x ≤ y := by
  induction k generalizing l with
  | zero =>
    intro x hx y hy
    rw [passUpTo] at hx hy
    match l with
    | [] => simp at hx
    | a :: t =>
      simp at hx hy
      simp [hx, hy]
  | succ k ih =>
    intro x hx y hy
    match l with
    | [] =>
      rw [passUpTo] at hx
      simp at hx
    | [a] =>
      rw [passUpTo] at hx hy
      simp at hy
    | a :: b :: t =>
      rw [passUpTo] at hx hy
      split_ifs at hx hy with hab
      · rw [List.take_succ_cons] at hx
        rw [List.drop_succ_cons] at hy
        rcases List.mem_cons.mp hx with rfl | hx
        · have hd : a ∈ (passUpTo k (a :: t)).take (k + 1) :=
            (passUpTo_take_perm k (a :: t)).mem_iff.mpr
              (by rw [List.take_succ_cons]; exact List.mem_cons_self a _)
          exact le_trans (le_of_lt hab) (ih (a :: t) a hd y hy)
        · exact ih (a :: t) x hx y hy
      · rw [List.take_succ_cons] at hx
        rw [List.drop_succ_cons] at hy
        rcases List.mem_cons.mp hx with rfl | hx
        · have hd : b ∈ (passUpTo k (b :: t)).take (k + 1) :=
            (passUpTo_take_perm k (b :: t)).mem_iff.mpr
              (by rw [List.take_succ_cons]; exact List.mem_cons_self b _)
          exact le_trans (not_lt.mp hab) (ih (b :: t) b hd y hy)
        · exact ih (b :: t) x hx y hy

theorem passUpTo_inv (k : ℕ) (l : List ℚ)
    (hs : (l.drop (k + 1)).Sorted (· ≤ ·))
    (hb : ∀ x ∈ l.take (k + 1), ∀ y ∈ l.drop (k + 1), x ≤ y) :
    ((passUpTo k l).drop k).Sorted (· ≤ ·) ∧
      ∀ x ∈ (passUpTo k l).take k, ∀ y ∈ (passUpTo k l).drop k, x ≤ y := by
  set r := passUpTo k l with hr
  have hdrop : r.drop (k + 1) = l.drop (k + 1) := passUpTo_drop k l
  have htake := passUpTo_take_perm k l
  have hmax := passUpTo_last_max k l
  have hsplit : r.drop k = (r.drop k).take 1 ++ r.drop (k + 1) := by
    conv_lhs => rw [← List.take_append_drop 1 (r.drop k)]
    rw [List.drop_drop]
  constructor
  · rcases hdk : r.drop k with _ | ⟨y, rest⟩
    · exact List.sorted_nil
    · have hrest : r.drop (k + 1) = rest := by
        rw [← List.drop_drop 1 k r, hdk]
        simp
      have hyt : y ∈ (r.drop k).take 1 := by
        rw [hdk]
        simp
      have hyl : y ∈ l.take (k + 1) :=
        htake.mem_iff.mp (head_drop_mem_take r k y hyt)
      rw [List.sorted_cons]
      constructor
      · intro b hbmem
        exact hb y hyl b (by rw [hdrop] at hrest; rw [hrest]; exact hbmem)
      · rw [← hrest, hdrop]
        exact hs
  · intro x hx y hy
    have hx1 : x ∈ r.take (k + 1) := mem_take_of_mem_take_pred r k x hx
    rw [hsplit] at hy
    rcases List.mem_append.mp hy with hy | hy
    · exact hmax x hx1 y hy
    · rw [hdrop] at hy
      exact hb x (htake.mem_iff.mp hx1) y hy

theorem bubbleIter_sorted (k : ℕ) (l : List ℚ)
    (hs : (l.drop k).Sorted (· ≤ ·))
    (hb : ∀ x ∈ l.take k, ∀ y ∈ l.drop k, x ≤ y) :
    (bubbleIter k l).Sorted (· ≤ ·) := by
  induction k generalizing l with
  | zero => simpa using hs
  | succ k ih =>
    rw [bubbleIter]
    have hinv := passUpTo_inv k l hs hb
    exact ih _ hinv.1 hinv.2

theorem bubbleIter_perm (k : ℕ) (l : List ℚ) : (bubbleIter k l).Perm l := by
  induction k generalizing l with
  | zero => rw [bubbleIter]
  | succ k ih =>
    rw [bubbleIter]
    exact (ih _).trans (passUpTo_perm k l)

theorem sortReals_perm (values : List ℚ) : (sortReals values).Perm values :=
  bubbleIter_perm values.length values

theorem sortReals_sorted (values : List ℚ) : (sortReals values).Sorted (· ≤ ·) := by
  apply bubbleIter_sorted
  · rw [List.drop_length]
    exact List.sorted_nil
  · intro x hx y hy
    rw [List.drop_length] at hy
    simp at hy

/-- **C9.** `sortReals` returns a sequence of the same length with the same
multiset of values, in non-decreasing order, and sorting is idempotent:
`sortReals (sortReals S) = sortReals S`.  The embedding is pure, so the
input list is left untouched by construction. -/
theorem sortReals_spec (S : List ℚ) :
    (sortReals S).length = S.length ∧
      ((sortReals S : List ℚ) : Multiset ℚ) = (S : Multiset ℚ) ∧
      (sortReals S).Sorted (· ≤ ·) ∧
      sortReals (sortReals S) = sortReals S := by
  refine ⟨(sortReals_perm S).length_eq, Multiset.coe_eq_coe.mpr (sortReals_perm S),
    sortReals_sorted S, ?_⟩
  exact List.eq_of_perm_of_sorted (sortReals_perm (sortReals S))
    (sortReals_sorted (sortReals S)) (sortReals_sorted S)

end RealNumberMath
